import Mathlib

/-!
Verification of the k-of-n threshold signature core described by the
repository's specification, together with the data flow of the driver
script `src/mutlisig.py`.

The script itself only calls the composite-key, combiner and verifier
operations; their implementations live outside the repository's sources,
so those operations are modelled from the specification text (each such
definition's doc comment starts with `Modelled from the spec:`).  The
script-level definitions (`scriptSigMap`, `mainTrace`, ...) are
transcribed from `src/mutlisig.py` directly.

Bytes are modelled as natural numbers (< 256 where it matters); byte
strings as lists of naturals.
-/

/-- Raw bytes of one holder's verification key (spec §3: PublicKey). -/
abbrev PublicKey := List Nat

/-- Raw signature bytes (spec §3: PartialSignature). -/
abbrev Signature := List Nat

/-- Opaque message bytes (spec §3: Message). -/
abbrev Message := List Nat

/-- Modelled from the spec: the error taxonomy of §7 (the implementations
raising these errors are not part of the repository's sources). -/
inductive MultisigError where
  | InvalidThreshold
  | TooManyHolders
  | DuplicateIndex
  | IndexOutOfRange
  | InsufficientSignatures
  | MalformedSignature
  | ThresholdNotMet
  | InvalidSignature (index : Nat)
  deriving Repr, DecidableEq

/-- Modelled from the spec: CompositePublicKey (§3), an ordered sequence of
holder public keys plus a threshold; the SDK class backing the script's
`MultiPublicKey` call is not in the repository's sources. -/
structure MultiPublicKey where
  keys : List PublicKey
  threshold : Nat
  deriving Repr, DecidableEq

/-- Modelled from the spec: `build` of CompositeIdentity (§4.2).  Fails with
`InvalidThreshold` when threshold < 1 or threshold > length(keys), with
`TooManyHolders` when more than 32 keys are given, and otherwise returns the
composite public key. -/
def build (keys : List PublicKey) (threshold : Nat) :
    Except MultisigError MultiPublicKey :=
  if threshold < 1 ∨ keys.length < threshold then .error .InvalidThreshold
  else if 32 < keys.length then .error .TooManyHolders
  else .ok ⟨keys, threshold⟩

/-- Modelled from the spec: canonical wire encoding of a CompositePublicKey
(§6): the raw public-key byte blocks in input order followed by a single
threshold byte. -/
def MultiPublicKey.to_bytes (mpk : MultiPublicKey) : List Nat :=
  mpk.keys.flatten ++ [mpk.threshold]

/-- Modelled from the spec: the fixed scheme-identifier byte appended before
address derivation (§4.2, §6). -/
def SCHEME_ID : Nat := 1

/-- Modelled from the spec: `derive_address` of CompositeIdentity (§4.2),
parameterised by the one-way digest, which is applied to the canonical
CompositePublicKey bytes concatenated with the scheme-identifier byte; this
is what the script's `AccountAddress.from_key` call performs. -/
def derive_address (digest : List Nat → List Nat) (mpk : MultiPublicKey) :
    List Nat :=
  digest (mpk.to_bytes ++ [SCHEME_ID])

/-- Ordering of (index, signature) pairs by holder index, non-strict. -/
def indexLe (p q : Nat × Signature) : Prop :=
  p.1 ≤ q.1

/-- Ordering of (index, signature) pairs by holder index, strict. -/
def indexLt (p q : Nat × Signature) : Prop :=
  p.1 < q.1

instance : DecidableRel indexLe :=
  fun p q => inferInstanceAs (Decidable (p.1 ≤ q.1))

instance : IsTotal (Nat × Signature) indexLe :=
  ⟨fun p q => Nat.le_total p.1 q.1⟩

instance : IsTrans (Nat × Signature) indexLe :=
  ⟨fun _ _ _ h₁ h₂ => Nat.le_trans h₁ h₂⟩

instance : IsAntisymm (Nat × Signature) indexLt :=
  ⟨fun _ _ h₁ h₂ => absurd h₂ (Nat.lt_asymm h₁)⟩

/-- Modelled from the spec: the canonical (ascending holder index) layout of
the combiner's output (§4.3). -/
def sortPairs (sigs : List (Nat × Signature)) : List (Nat × Signature) :=
  List.insertionSort indexLe sigs

/-- Modelled from the spec: CompositeSignature (§3), the included
(index, partial signature) pairs in canonical order; its wire encoding is
`MultiSignature.to_bytes`.  The SDK class backing the script's
`MultiSignature` call is not in the repository's sources. -/
structure MultiSignature where
  pairs : List (Nat × Signature)
  deriving Repr, DecidableEq

/-- Modelled from the spec: `combine` of SignatureCombiner (§4.3).  Fails
with `DuplicateIndex` if a holder index appears twice, `IndexOutOfRange` if
an index is not below n, `InsufficientSignatures` if fewer than k pairs are
given; otherwise returns the pairs in canonical ascending-index order. -/
def combine (n k : Nat) (sigs : List (Nat × Signature)) :
    Except MultisigError MultiSignature :=
  if (sigs.map Prod.fst).Nodup then
    if ∃ p ∈ sigs, n ≤ p.1 then .error .IndexOutOfRange
    else if sigs.length < k then .error .InsufficientSignatures
    else .ok ⟨sortPairs sigs⟩
  else .error .DuplicateIndex

/-- Value of a list of bits, least significant bit first. -/
def bitsToNat : List Bool → Nat
  | [] => 0
  | bit :: rest => (if bit then 1 else 0) + 2 * bitsToNat rest

/-- Modelled from the spec: the eight presence flags stored in byte `b` of
the bitmap, little-endian bit order (§6): flag `j` of byte `b` records
holder index `8 * b + j`. -/
def byteBits (idxs : List Nat) (b : Nat) : List Bool :=
  (List.range 8).map (fun j => decide ((8 * b + j) ∈ idxs))

/-- One byte of the presence bitmap. -/
def bitmapByte (idxs : List Nat) (b : Nat) : Nat :=
  bitsToNat (byteBits idxs b)

/-- Modelled from the spec: the presence bitmap of ⌈n/8⌉ bytes in
little-endian bit order, bit i set iff holder i is included (§3, §6). -/
def bitmap (n : Nat) (idxs : List Nat) : List Nat :=
  (List.range ((n + 7) / 8)).map (bitmapByte idxs)

/-- Bit `i` of a byte string read in little-endian bit order. -/
def bitmapTestBit (bytes : List Nat) (i : Nat) : Bool :=
  (bytes.getD (i / 8) 0).testBit (i % 8)

/-- Number of set bits in one byte. -/
def bytePopcount (x : Nat) : Nat :=
  ((List.range 8).filter (fun j => x.testBit j)).length

/-- Number of set bits of a byte string. -/
def popcount (bytes : List Nat) : Nat :=
  (bytes.map bytePopcount).sum

/-- Modelled from the spec: wire encoding of a CompositeSignature (§6):
presence bitmap followed by the included partial signatures. -/
def MultiSignature.to_bytes (n : Nat) (ms : MultiSignature) : List Nat :=
  bitmap n (ms.pairs.map Prod.fst) ++ (ms.pairs.map Prod.snd).flatten

/-- Modelled from the spec: steps 3–4 of the verifier (§4.4): check every
claimed partial signature against its holder's public key, reporting the
first failing holder index. -/
def verifyPartials (V : PublicKey → Message → Signature → Bool)
    (keys : List PublicKey) (m : Message) :
    List (Nat × Signature) → Except MultisigError Unit
  | [] => .ok ()
  | (i, s) :: rest =>
    if V (keys.getD i []) m s then verifyPartials V keys m rest
    else .error (.InvalidSignature i)

/-- Modelled from the spec: `verify` of CompositeVerifier (§4.4),
parameterised by the underlying single-signature verification primitive
`V`: reject claimed indices outside [0, n), then the threshold, then each
individual partial signature. -/
def verify (V : PublicKey → Message → Signature → Bool)
    (mpk : MultiPublicKey) (ms : MultiSignature) (m : Message) :
    Except MultisigError Unit :=
  if ∃ p ∈ ms.pairs, mpk.keys.length ≤ p.1 then .error .MalformedSignature
  else if ms.pairs.length < mpk.threshold then .error .ThresholdNotMet
  else verifyPartials V mpk.keys m ms.pairs

/-- A toy deterministic single-signature scheme used for concrete
witnesses: a signature is valid iff it is the signer's key bytes followed
by the message bytes. -/
def toyVerify (pk : PublicKey) (m : Message) (s : Signature) : Bool :=
  decide (s = pk ++ m)

/-- One key holder of the script: a public key and a signing function
(src/mutlisig.py: the `Account` objects alice, bob, chad). -/
structure Holder where
  pk : PublicKey
  sign : Message → Signature

/-- The ordered key list the script passes to `MultiPublicKey`
(src/mutlisig.py lines 72–75). -/
def scriptKeys (alice bob chad : Holder) : List PublicKey :=
  [alice.pk, bob.pk, chad.pk]

/-- The script's threshold (src/mutlisig.py line 70). -/
def scriptThreshold : Nat := 2

/-- The script's combiner input (src/mutlisig.py lines 137–147): alice and
bob each sign the keyed form of the one raw transaction, and their
signatures are paired with indices 0 and 1. -/
def scriptSigMap (alice bob : Holder) (keyed : Message) :
    List (Nat × Signature) :=
  [(0, alice.sign keyed), (1, bob.sign keyed)]

/-- Observable interactive events of the script. -/
inductive Event where
  | prompt
  deriving Repr, DecidableEq

/-- The module-level mutable state of src/mutlisig.py (line 30). -/
structure ModuleState where
  should_wait : Bool

/-- Transcribed from src/mutlisig.py lines 32–35: `wait` prompts for input
exactly when the module-level flag is set. -/
def wait (st : ModuleState) : List Event :=
  if st.should_wait then [Event.prompt] else []

/-- Transcribed from src/mutlisig.py `main` (lines 37–177): the global flag
is assigned from `should_wait_input` (lines 38–39) before the five `wait()`
calls (lines 55, 67, 83, 112, 144); the trace records the interactive
prompts those calls produce. -/
def mainTrace (_initial : ModuleState) (should_wait_input : Bool) :
    List Event :=
  let st : ModuleState := ⟨should_wait_input⟩
  wait st ++ wait st ++ wait st ++ wait st ++ wait st

/-- Characterisation of the successful runs of `build`. -/
theorem build_ok_iff (keys : List PublicKey) (t : Nat) (mpk : MultiPublicKey) :
    build keys t = .ok mpk ↔
      1 ≤ t ∧ t ≤ keys.length ∧ keys.length ≤ 32 ∧ mpk = ⟨keys, t⟩ := by
  constructor
  · intro h
    unfold build at h
    split at h
    · exact absurd h (by simp)
    · split at h
      · exact absurd h (by simp)
      · cases h
        rename_i h₁ h₂
        exact ⟨by omega, by omega, by omega, rfl⟩
  · rintro ⟨h₁, h₂, h₃, rfl⟩
    unfold build
    rw [if_neg (by omega), if_neg (by omega)]

/-- C2: `build` is deterministic and its encoding is the concatenation of the
raw key blocks in input order followed by the threshold byte. -/
theorem build_encoding_canonical (keys : List PublicKey) (t : Nat)
    (mpk : MultiPublicKey) (h : build keys t = .ok mpk) :
    mpk.to_bytes = keys.flatten ++ [t] ∧
    ∀ mpk₂, build keys t = .ok mpk₂ → mpk.to_bytes = mpk₂.to_bytes := by
  obtain ⟨-, -, -, rfl⟩ := (build_ok_iff keys t mpk).1 h
  refine ⟨rfl, ?_⟩
  intro mpk₂ h₂
  obtain ⟨-, -, -, rfl⟩ := (build_ok_iff keys t mpk₂).1 h₂
  rfl

/-- Witness for C2 at a concrete input. -/
theorem build_encoding_canonical_witness :
    build [[10, 11], [20, 21]] 2 = .ok ⟨[[10, 11], [20, 21]], 2⟩ ∧
    MultiPublicKey.to_bytes ⟨[[10, 11], [20, 21]], 2⟩ =
      ([[10, 11], [20, 21]] : List PublicKey).flatten ++ [2] := by
  refine ⟨rfl, ?_⟩
  exact (build_encoding_canonical [[10, 11], [20, 21]] 2 ⟨[[10, 11], [20, 21]], 2⟩
    rfl).1

/-- C3: `derive_address` is the digest of the canonical composite-key bytes
concatenated with the scheme-identifier byte, and byte-identical composite
keys derive identical addresses. -/
theorem derive_address_spec (digest : List Nat → List Nat)
    (mpk : MultiPublicKey) :
    derive_address digest mpk = digest (mpk.to_bytes ++ [SCHEME_ID]) ∧
    ∀ mpk₂, mpk.to_bytes = mpk₂.to_bytes →
      derive_address digest mpk = derive_address digest mpk₂ := by
  refine ⟨rfl, ?_⟩
  intro mpk₂ h
  unfold derive_address
  rw [h]

/-- Witness for C3: two distinct composite keys with identical byte
encodings derive the same address. -/
theorem derive_address_spec_witness :
    MultiPublicKey.to_bytes ⟨[[7, 8]], 1⟩ = MultiPublicKey.to_bytes ⟨[[7], [8]], 1⟩ ∧
    derive_address List.reverse ⟨[[7, 8]], 1⟩ = derive_address List.reverse ⟨[[7], [8]], 1⟩ := by
  refine ⟨by decide, ?_⟩
  exact (derive_address_spec List.reverse ⟨[[7, 8]], 1⟩).2 ⟨[[7], [8]], 1⟩ (by decide)

/-- C4: for every nonempty key list, `build` fails with `InvalidThreshold`
exactly when the threshold is below 1 or above the number of keys, and
succeeds whenever 1 ≤ threshold ≤ n ≤ 32. -/
theorem build_threshold_errors (keys : List PublicKey) (t : Nat)
    (hn : 1 ≤ keys.length) :
    ((t < 1 ∨ keys.length < t) → build keys t = .error .InvalidThreshold) ∧
    (1 ≤ t → t ≤ keys.length → keys.length ≤ 32 →
      ∃ mpk, build keys t = .ok mpk) := by
  constructor
  · intro h
    unfold build
    rw [if_pos h]
  · intro h1 h2 h3
    refine ⟨⟨keys, t⟩, ?_⟩
    unfold build
    rw [if_neg (by omega), if_neg (by omega)]

/-- Witness for C4: with two keys, threshold 0 and threshold 3 are rejected
with `InvalidThreshold` while threshold 2 is accepted. -/
theorem build_threshold_errors_witness :
    build [[1], [2]] 0 = .error .InvalidThreshold ∧
    build [[1], [2]] 3 = .error .InvalidThreshold ∧
    ∃ mpk, build [[1], [2]] 2 = .ok mpk := by
  refine ⟨?_, ?_, ?_⟩
  · exact (build_threshold_errors [[1], [2]] 0 (by decide)).1 (by decide)
  · exact (build_threshold_errors [[1], [2]] 3 (by decide)).1 (by decide)
  · exact (build_threshold_errors [[1], [2]] 2 (by decide)).2 (by decide) (by decide)
      (by decide)

/-- The canonical layout is a permutation of its input. -/
theorem sortPairs_perm (sigs : List (Nat × Signature)) : (sortPairs sigs).Perm sigs :=
  List.perm_insertionSort indexLe sigs

/-- The canonical layout is sorted by holder index. -/
theorem sortPairs_sorted (sigs : List (Nat × Signature)) :
    List.Sorted indexLe (sortPairs sigs) :=
  List.sorted_insertionSort indexLe sigs

/-- A list sorted by index with no duplicate indices is strictly sorted. -/
theorem sorted_indexLt_of_le_nodup (l : List (Nat × Signature))
    (hs : List.Sorted indexLe l) (hn : (l.map Prod.fst).Nodup) :
    List.Sorted indexLt l := by
  have hne : l.Pairwise (fun p q : Nat × Signature => p.1 ≠ q.1) :=
    (List.pairwise_map).1 hn
  exact (hs.and hne).imp (fun h => Nat.lt_of_le_of_ne h.1 h.2)

/-- Characterisation of the successful runs of `combine`. -/
theorem combine_ok_iff (n k : Nat) (sigs : List (Nat × Signature))
    (ms : MultiSignature) :
    combine n k sigs = .ok ms ↔
      (sigs.map Prod.fst).Nodup ∧ (∀ p ∈ sigs, p.1 < n) ∧
        k ≤ sigs.length ∧ ms = ⟨sortPairs sigs⟩ := by
  constructor
  · intro h
    unfold combine at h
    split at h
    · split at h
      · exact absurd h (by simp)
      · split at h
        · exact absurd h (by simp)
        · cases h
          rename_i h₁ h₂ h₃
          push_neg at h₂
          exact ⟨h₁, h₂, by omega, rfl⟩
    · exact absurd h (by simp)
  · rintro ⟨h₁, h₂, h₃, rfl⟩
    unfold combine
    rw [if_pos h₁, if_neg (by push_neg; exact h₂), if_neg (by omega)]

/-- C5: with distinct in-range indices, `combine` fails with
`InsufficientSignatures` exactly on inputs with fewer than k pairs, and
succeeds on exactly k pairs whatever the signature byte values are. -/
theorem combine_insufficient (n k : Nat) (sigs : List (Nat × Signature))
    (hnd : (sigs.map Prod.fst).Nodup) (hrange : ∀ p ∈ sigs, p.1 < n) :
    (sigs.length < k → combine n k sigs = .error .InsufficientSignatures) ∧
    (sigs.length = k → ∃ ms, combine n k sigs = .ok ms ∧ ms.pairs.Perm sigs) := by
  constructor
  · intro hlt
    unfold combine
    rw [if_pos hnd, if_neg (by push_neg; exact hrange), if_pos hlt]
  · intro hk
    refine ⟨⟨sortPairs sigs⟩, ?_, sortPairs_perm sigs⟩
    exact (combine_ok_iff n k sigs ⟨sortPairs sigs⟩).2 ⟨hnd, hrange, by omega, rfl⟩

/-- Witness for C5: with n = 3, k = 2, one pair is rejected as insufficient
and two pairs are accepted. -/
theorem combine_insufficient_witness :
    combine 3 2 [(0, [9])] = .error .InsufficientSignatures ∧
    ∃ ms, combine 3 2 [(1, [8]), (0, [9])] = .ok ms ∧
      ms.pairs.Perm [(1, [8]), (0, [9])] := by
  constructor
  · exact (combine_insufficient 3 2 [(0, [9])] (by decide) (by decide)).1
      (by decide)
  · exact (combine_insufficient 3 2 [(1, [8]), (0, [9])] (by decide)
      (by decide)).2 (by decide)

/-- C6: `combine` is order-insensitive: permuting an input with distinct
indices leaves the result byte-identical, and any successful output lays the
pairs out in strictly ascending index order. -/
theorem combine_order_insensitive (n k : Nat)
    (ps qs : List (Nat × Signature)) (hperm : ps.Perm qs)
    (hnd : (ps.map Prod.fst).Nodup) :
    combine n k ps = combine n k qs ∧
    ∀ ms, combine n k ps = .ok ms → List.Sorted indexLt ms.pairs := by
  have hndq : (qs.map Prod.fst).Nodup := ((hperm.map Prod.fst).nodup_iff).1 hnd
  have hsort : sortPairs ps = sortPairs qs := by
    have hp : (sortPairs ps).Perm (sortPairs qs) :=
      ((sortPairs_perm ps).trans hperm).trans (sortPairs_perm qs).symm
    have hndp : ((sortPairs ps).map Prod.fst).Nodup :=
      (((sortPairs_perm ps).map Prod.fst).nodup_iff).2 hnd
    have hndq' : ((sortPairs qs).map Prod.fst).Nodup :=
      (((sortPairs_perm qs).map Prod.fst).nodup_iff).2 hndq
    exact List.eq_of_perm_of_sorted hp
      (sorted_indexLt_of_le_nodup _ (sortPairs_sorted ps) hndp)
      (sorted_indexLt_of_le_nodup _ (sortPairs_sorted qs) hndq')
  constructor
  · unfold combine
    refine if_congr ⟨fun _ => hndq, fun _ => hnd⟩ ?_ rfl
    refine if_congr ?_ rfl (if_congr ?_ rfl (by rw [hsort]))
    · constructor
      · rintro ⟨p, hp, h⟩; exact ⟨p, hperm.mem_iff.1 hp, h⟩
      · rintro ⟨p, hp, h⟩; exact ⟨p, hperm.mem_iff.2 hp, h⟩
    · rw [hperm.length_eq]
  · intro ms h
    obtain ⟨h₁, -, -, rfl⟩ := (combine_ok_iff n k ps ms).1 h
    have hndp : ((sortPairs ps).map Prod.fst).Nodup :=
      (((sortPairs_perm ps).map Prod.fst).nodup_iff).2 h₁
    exact sorted_indexLt_of_le_nodup _ (sortPairs_sorted ps) hndp

/-- Witness for C6: the same two pairs supplied in either order combine to
the same composite signature, laid out in ascending index order. -/
theorem combine_order_insensitive_witness :
    combine 3 2 [(1, [8]), (0, [9])] = combine 3 2 [(0, [9]), (1, [8])] ∧
    ∀ ms, combine 3 2 [(1, [8]), (0, [9])] = .ok ms →
      List.Sorted indexLt ms.pairs := by
  exact combine_order_insensitive 3 2 [(1, [8]), (0, [9])] [(0, [9]), (1, [8])]
    (List.Perm.swap (0, [9]) (1, [8]) []) (by decide)

/-- A list of bits encodes a value below 2 ^ (number of bits). -/
theorem bitsToNat_lt (bits : List Bool) : bitsToNat bits < 2 ^ bits.length := by
  induction bits with
  | nil => simp [bitsToNat]
  | cons bit rest ih =>
    have h : bitsToNat (bit :: rest) = (if bit then 1 else 0) + 2 * bitsToNat rest := rfl
    rw [h, List.length_cons, pow_succ]
    have h1 : (if bit then 1 else 0) ≤ 1 := by cases bit <;> simp
    omega

/-- Reading back one bit of an encoded bit list. -/
theorem bitsToNat_testBit (bits : List Bool) (j : Nat) :
    (bitsToNat bits).testBit j = bits.getD j false := by
  induction bits generalizing j with
  | nil => simp [bitsToNat]
  | cons bit rest ih =>
    have hb : bitsToNat (bit :: rest) = (if bit then 1 else 0) + 2 * bitsToNat rest := rfl
    cases j with
    | zero =>
      rw [hb, Nat.testBit_zero]
      cases bit <;> simp [Nat.add_mul_mod_self_left]
    | succ j =>
      rw [hb, Nat.testBit_add_one]
      have hdiv : ((if bit then 1 else 0) + 2 * bitsToNat rest) / 2 = bitsToNat rest := by
        cases bit <;> simp
        omega
      rw [hdiv, ih]
      simp

/-- Every byte of the presence bitmap is an actual byte. -/
theorem bitmapByte_lt (idxs : List Nat) (b : Nat) : bitmapByte idxs b < 256 := by
  have h := bitsToNat_lt (byteBits idxs b)
  have hl : (byteBits idxs b).length = 8 := by simp [byteBits]
  rw [hl] at h
  exact lt_of_lt_of_eq h (by norm_num)

/-- Bit `j` of bitmap byte `b` records holder index `8 * b + j`. -/
theorem bitmapByte_testBit (idxs : List Nat) (b j : Nat) (hj : j < 8) :
    (bitmapByte idxs b).testBit j = decide ((8 * b + j) ∈ idxs) := by
  rw [bitmapByte, bitsToNat_testBit]
  simp [byteBits, List.getD_eq_getElem?_getD, List.getElem?_map, List.getElem?_range, hj]

/-- Bit `i` of the bitmap is set exactly when holder `i` is included. -/
theorem bitmap_testBit (n : Nat) (idxs : List Nat) (hb : ∀ i ∈ idxs, i < n)
    (i : Nat) : bitmapTestBit (bitmap n idxs) i = decide (i ∈ idxs) := by
  unfold bitmapTestBit bitmap
  by_cases hi : i / 8 < (n + 7) / 8
  · have hget : ((List.range ((n + 7) / 8)).map (bitmapByte idxs)).getD (i / 8) 0 =
        bitmapByte idxs (i / 8) := by
      simp [List.getD_eq_getElem?_getD, List.getElem?_map, List.getElem?_range, hi]
    rw [hget, bitmapByte_testBit idxs (i / 8) (i % 8) (Nat.mod_lt _ (by omega))]
    congr 1
    have heq : 8 * (i / 8) + i % 8 = i := by omega
    rw [heq]
  · have hget : ((List.range ((n + 7) / 8)).map (bitmapByte idxs)).getD (i / 8) 0 = 0 := by
      apply List.getD_eq_default
      simp
      omega
    rw [hget]
    simp only [Nat.zero_testBit]
    symm
    simp only [decide_eq_false_iff_not]
    intro hmem
    exact hi (by have := hb i hmem; omega)

/-- Popcount of one bitmap byte counts the included indices it covers. -/
theorem bytePopcount_bitmapByte (idxs : List Nat) (b : Nat) :
    bytePopcount (bitmapByte idxs b) =
      (List.range 8).countP (fun j => decide ((8 * b + j) ∈ idxs)) := by
  unfold bytePopcount
  rw [List.countP_eq_length_filter]
  congr 1
  apply List.filter_congr
  intro j hj
  rw [List.mem_range] at hj
  exact bitmapByte_testBit idxs b j hj

/-- Membership counts over `range (8 * B)` decompose bytewise. -/
theorem countP_range_mul (idxs : List Nat) (B : Nat) :
    (List.range (8 * B)).countP (fun i => decide (i ∈ idxs)) =
      ((List.range B).map
        (fun b => (List.range 8).countP (fun j => decide ((8 * b + j) ∈ idxs)))).sum := by
  induction B with
  | zero => simp
  | succ B ih =>
    rw [Nat.mul_succ, List.range_add, List.countP_append, ih, List.countP_map]
    rw [List.range_succ B, List.map_append, List.sum_append]
    simp only [List.map_cons, List.map_nil, List.sum_cons, List.sum_nil]
    rfl

/-- Counting the members of a bounded duplicate-free list inside a range
recovers its length. -/
theorem countP_mem_range (idxs : List Nat) (m : Nat) (hn : idxs.Nodup)
    (hb : ∀ i ∈ idxs, i < m) :
    (List.range m).countP (fun i => decide (i ∈ idxs)) = idxs.length := by
  rw [List.countP_eq_length_filter]
  have hperm : ((List.range m).filter (fun i => decide (i ∈ idxs))).Perm idxs := by
    rw [List.perm_ext_iff_of_nodup ((List.nodup_range m).filter _) hn]
    intro a
    constructor
    · intro ha
      have := (List.mem_filter.1 ha).2
      simpa using this
    · intro ha
      exact List.mem_filter.2 ⟨List.mem_range.2 (hb a ha), by simpa using ha⟩
  exact hperm.length_eq

/-- Popcount of the bitmap equals the number of included indices. -/
theorem popcount_bitmap (n : Nat) (idxs : List Nat) (hn : idxs.Nodup)
    (hb : ∀ i ∈ idxs, i < n) :
    popcount (bitmap n idxs) = idxs.length := by
  unfold popcount bitmap
  rw [List.map_map]
  have hmaps : (List.range ((n + 7) / 8)).map (bytePopcount ∘ bitmapByte idxs) =
      (List.range ((n + 7) / 8)).map
        (fun b => (List.range 8).countP (fun j => decide ((8 * b + j) ∈ idxs))) := by
    apply List.map_congr_left
    intro b _
    exact bytePopcount_bitmapByte idxs b
  rw [hmaps, ← countP_range_mul]
  apply countP_mem_range idxs _ hn
  intro i hi
  have := hb i hi
  omega

/-- C7: every composite signature produced by `combine` is encoded as a
presence bitmap of ⌈n/8⌉ bytes in little-endian bit order (bit i set iff
holder i is included) followed by the included partial signatures in
ascending index order, and the bitmap's popcount equals the number of
included signature blocks. -/
theorem combine_encoding (n k : Nat) (sigs : List (Nat × Signature))
    (ms : MultiSignature) (h : combine n k sigs = .ok ms) :
    MultiSignature.to_bytes n ms =
      bitmap n (ms.pairs.map Prod.fst) ++ (ms.pairs.map Prod.snd).flatten ∧
    (bitmap n (ms.pairs.map Prod.fst)).length = (n + 7) / 8 ∧
    (∀ byte ∈ bitmap n (ms.pairs.map Prod.fst), byte < 256) ∧
    (∀ i, bitmapTestBit (bitmap n (ms.pairs.map Prod.fst)) i = true ↔
      i ∈ ms.pairs.map Prod.fst) ∧
    List.Sorted indexLt ms.pairs ∧
    popcount (bitmap n (ms.pairs.map Prod.fst)) = ms.pairs.length := by
  obtain ⟨hnd, hrange, hk, rfl⟩ := (combine_ok_iff n k sigs ms).1 h
  have hperm := sortPairs_perm sigs
  have hnd' : ((sortPairs sigs).map Prod.fst).Nodup :=
    ((hperm.map Prod.fst).nodup_iff).2 hnd
  have hrange' : ∀ i ∈ (sortPairs sigs).map Prod.fst, i < n := by
    intro i hi
    rw [List.mem_map] at hi
    obtain ⟨p, hp, rfl⟩ := hi
    exact hrange p (hperm.mem_iff.1 hp)
  refine ⟨rfl, by simp [bitmap], ?_, ?_, ?_, ?_⟩
  · intro byte hbyte
    simp only [bitmap, List.mem_map] at hbyte
    obtain ⟨b, -, rfl⟩ := hbyte
    exact bitmapByte_lt _ _
  · intro i
    rw [bitmap_testBit n _ hrange' i]
    simp
  · exact sorted_indexLt_of_le_nodup _ (sortPairs_sorted sigs) hnd'
  · rw [popcount_bitmap n _ hnd' hrange', List.length_map]

/-- Witness for C7 at a concrete input with a two-byte bitmap. -/
theorem combine_encoding_witness :
    combine 10 2 [(9, [7]), (0, [5])] = .ok ⟨[(0, [5]), (9, [7])]⟩ ∧
    MultiSignature.to_bytes 10 ⟨[(0, [5]), (9, [7])]⟩ = [1, 2, 5, 7] ∧
    popcount (bitmap 10 (([(0, [5]), (9, [7])] : List (Nat × Signature)).map Prod.fst)) = 2 ∧
    List.Sorted indexLt ([(0, [5]), (9, [7])] : List (Nat × Signature)) := by
  have h := combine_encoding 10 2 [(9, [7]), (0, [5])] ⟨[(0, [5]), (9, [7])]⟩ rfl
  exact ⟨rfl, h.1.trans (by decide), h.2.2.2.2.2, h.2.2.2.2.1⟩

/-- If some claimed partial signature fails individual verification, the
partial-signature check reports a genuinely failing holder index. -/
theorem verifyPartials_error (V : PublicKey → Message → Signature → Bool)
    (keys : List PublicKey) (m : Message) :
    ∀ l : List (Nat × Signature),
      (∃ p ∈ l, V (keys.getD p.1 []) m p.2 = false) →
      ∃ j s, (j, s) ∈ l ∧ V (keys.getD j []) m s = false ∧
        verifyPartials V keys m l = .error (.InvalidSignature j) := by
  intro l
  induction l with
  | nil =>
    rintro ⟨p, hp, -⟩
    exact absurd hp (List.not_mem_nil p)
  | cons q rest ih =>
    obtain ⟨i, s₀⟩ := q
    have hstep : verifyPartials V keys m ((i, s₀) :: rest) =
        if V (keys.getD i []) m s₀ then verifyPartials V keys m rest
        else .error (.InvalidSignature i) := rfl
    intro hbad
    rcases Bool.eq_false_or_eq_true (V (keys.getD i []) m s₀) with hV | hV
    · have hrest : ∃ p ∈ rest, V (keys.getD p.1 []) m p.2 = false := by
        obtain ⟨p, hp, hpf⟩ := hbad
        rcases List.mem_cons.1 hp with rfl | hmem
        · have hpf' : V (keys.getD i []) m s₀ = false := hpf
          rw [hV] at hpf'
          exact absurd hpf' (by simp)
        · exact ⟨p, hmem, hpf⟩
      obtain ⟨j, s, hmem, hf, hrun⟩ := ih hrest
      refine ⟨j, s, List.mem_cons_of_mem _ hmem, hf, ?_⟩
      rw [hstep, if_pos hV]
      exact hrun
    · refine ⟨i, s₀, List.mem_cons_self _ _, ?_, ?_⟩
      · exact hV
      · rw [hstep, if_neg (by rw [hV]; simp)]

/-- C8: verification is all-or-nothing: whenever a well-formed composite
signature with enough claimed signers contains at least one partial
signature that fails individual verification, `verify` rejects with
`InvalidSignature` naming a genuinely offending index. -/
theorem verify_all_or_nothing (V : PublicKey → Message → Signature → Bool)
    (mpk : MultiPublicKey) (ms : MultiSignature) (m : Message)
    (hrange : ∀ p ∈ ms.pairs, p.1 < mpk.keys.length)
    (hthr : mpk.threshold ≤ ms.pairs.length)
    (hbad : ∃ p ∈ ms.pairs, V (mpk.keys.getD p.1 []) m p.2 = false) :
    ∃ j s, (j, s) ∈ ms.pairs ∧ V (mpk.keys.getD j []) m s = false ∧
      verify V mpk ms m = .error (.InvalidSignature j) := by
  obtain ⟨j, s, hmem, hf, hrun⟩ := verifyPartials_error V mpk.keys m ms.pairs hbad
  refine ⟨j, s, hmem, hf, ?_⟩
  unfold verify
  rw [if_neg (by push_neg; exact hrange), if_neg (by omega)]
  exact hrun

/-- Witness for C8: two claimed signers meet the threshold, the first
partial signature is valid, the second is corrupted, and `verify` rejects
naming index 1. -/
theorem verify_all_or_nothing_witness :
    toyVerify [2] [42] [9, 9] = false ∧
    ∃ j s, (j, s) ∈ ([(0, [1, 42]), (1, [9, 9])] : List (Nat × Signature)) ∧
      toyVerify (([[1], [2], [3]] : List PublicKey).getD j []) [42] s = false ∧
      verify toyVerify ⟨[[1], [2], [3]], 2⟩ ⟨[(0, [1, 42]), (1, [9, 9])]⟩ [42] =
        .error (.InvalidSignature j) := by
  refine ⟨by decide, ?_⟩
  exact verify_all_or_nothing toyVerify ⟨[[1], [2], [3]], 2⟩
    ⟨[(0, [1, 42]), (1, [9, 9])]⟩ [42] (by decide) (by decide)
    ⟨(1, [9, 9]), by decide, by decide⟩

/-- C1: the concrete 2-of-3 scenario: building the composite key from three
holder keys with threshold 2, signing one message with holders 0 and 1 and
combining succeeds, the presence bitmap has exactly bits 0 and 1 set, and
verification accepts. -/
theorem scenario_two_of_three (V : PublicKey → Message → Signature → Bool)
    (pkA pkB pkC : PublicKey) (m : Message) (sA sB : Signature)
    (hA : V pkA m sA = true) (hB : V pkB m sB = true) :
    build [pkA, pkB, pkC] 2 = .ok ⟨[pkA, pkB, pkC], 2⟩ ∧
    combine 3 2 [(0, sA), (1, sB)] = .ok ⟨[(0, sA), (1, sB)]⟩ ∧
    ([(0, sA), (1, sB)] : List (Nat × Signature)).map Prod.fst = [0, 1] ∧
    (∀ i, i < 8 → (bitmapTestBit (bitmap 3 [0, 1]) i = true ↔ (i = 0 ∨ i = 1))) ∧
    verify V ⟨[pkA, pkB, pkC], 2⟩ ⟨[(0, sA), (1, sB)]⟩ m = .ok () := by
  refine ⟨?_, ?_, by simp, by decide, ?_⟩
  · exact (build_ok_iff _ _ _).2 ⟨by omega, by simp, by simp, rfl⟩
  · refine (combine_ok_iff _ _ _ _).2 ⟨by simp, ?_, by simp, rfl⟩
    intro p hp
    simp only [List.mem_cons, List.not_mem_nil, or_false] at hp
    rcases hp with rfl | rfl <;> simp
  · unfold verify
    rw [if_neg (by simp), if_neg (by simp)]
    simp [verifyPartials, hA, hB]

/-- Witness for C1 with the toy signature scheme. -/
theorem scenario_two_of_three_witness :
    toyVerify [1] [42] [1, 42] = true ∧ toyVerify [2] [42] [2, 42] = true ∧
    (build [[1], [2], [3]] 2 = .ok ⟨[[1], [2], [3]], 2⟩ ∧
     combine 3 2 [(0, [1, 42]), (1, [2, 42])] = .ok ⟨[(0, [1, 42]), (1, [2, 42])]⟩ ∧
     ([(0, [1, 42]), (1, [2, 42])] : List (Nat × Signature)).map Prod.fst = [0, 1] ∧
     (∀ i, i < 8 → (bitmapTestBit (bitmap 3 [0, 1]) i = true ↔ (i = 0 ∨ i = 1))) ∧
     verify toyVerify ⟨[[1], [2], [3]], 2⟩ ⟨[(0, [1, 42]), (1, [2, 42])]⟩ [42] = .ok ()) := by
  refine ⟨by decide, by decide, ?_⟩
  exact scenario_two_of_three toyVerify [1] [2] [3] [42] [1, 42] [2, 42]
    (by decide) (by decide)

/-- C9: in the script's authorization flow, both partial signatures are
over the same keyed transaction bytes, each combiner index matches the
position of its signer's public key in the list given to `MultiPublicKey`,
and exactly threshold-many distinct indices are supplied in ascending
order. -/
theorem script_sig_map_invariant (alice bob chad : Holder) (keyed : Message) :
    (∀ p ∈ scriptSigMap alice bob keyed,
      ∃ hol, (hol = alice ∨ hol = bob) ∧ p.2 = hol.sign keyed ∧
        (scriptKeys alice bob chad).getD p.1 [] = hol.pk) ∧
    (scriptSigMap alice bob keyed).map Prod.fst = [0, 1] ∧
    ((scriptSigMap alice bob keyed).map Prod.fst).Nodup ∧
    (scriptSigMap alice bob keyed).length = scriptThreshold ∧
    List.Sorted indexLt (scriptSigMap alice bob keyed) := by
  refine ⟨?_, by simp [scriptSigMap], by simp [scriptSigMap], rfl, ?_⟩
  · intro p hp
    simp only [scriptSigMap, List.mem_cons, List.not_mem_nil, or_false] at hp
    rcases hp with rfl | rfl
    · exact ⟨alice, Or.inl rfl, rfl, rfl⟩
    · exact ⟨bob, Or.inr rfl, rfl, rfl⟩
  · simp [scriptSigMap, List.Sorted, List.pairwise_cons, indexLt]

/-- Witness for C9 at concrete holders and message. -/
theorem script_sig_map_invariant_witness :
    (∀ p ∈ scriptSigMap ⟨[1], fun m => 1 :: m⟩ ⟨[2], fun m => 2 :: m⟩ [42],
      ∃ hol, (hol = (⟨[1], fun m => 1 :: m⟩ : Holder) ∨
          hol = (⟨[2], fun m => 2 :: m⟩ : Holder)) ∧
        p.2 = hol.sign [42] ∧
        (scriptKeys ⟨[1], fun m => 1 :: m⟩ ⟨[2], fun m => 2 :: m⟩
          ⟨[3], fun m => 3 :: m⟩).getD p.1 [] = hol.pk) ∧
    (scriptSigMap ⟨[1], fun m => 1 :: m⟩ ⟨[2], fun m => 2 :: m⟩ [42]).map Prod.fst
      = [0, 1] ∧
    ((scriptSigMap ⟨[1], fun m => 1 :: m⟩ ⟨[2], fun m => 2 :: m⟩ [42]).map
      Prod.fst).Nodup ∧
    (scriptSigMap ⟨[1], fun m => 1 :: m⟩ ⟨[2], fun m => 2 :: m⟩ [42]).length
      = scriptThreshold ∧
    List.Sorted indexLt
      (scriptSigMap ⟨[1], fun m => 1 :: m⟩ ⟨[2], fun m => 2 :: m⟩ [42]) :=
  script_sig_map_invariant ⟨[1], fun m => 1 :: m⟩ ⟨[2], fun m => 2 :: m⟩
    ⟨[3], fun m => 3 :: m⟩ [42]

/-- C10: `main` assigns its `should_wait_input` parameter to the module
flag before any `wait()` call, `wait` prompts exactly when the flag is
set, so a run with `False` never prompts and a run with `True` prompts at
every one of the five `wait()` calls, whatever the flag's prior value. -/
theorem main_wait_flag (init : ModuleState) :
    (∀ st, wait st = if st.should_wait then [Event.prompt] else []) ∧
    mainTrace init false = [] ∧
    mainTrace init true = List.replicate 5 Event.prompt :=
  ⟨fun _ => rfl, rfl, rfl⟩
